import Mathlib

/-!
Verification development for the GitHub-Classroom-to-store sync engine
(`classroom_sync.py`): a shallow embedding of its grade aggregation,
resolution-time computation, leaderboard ranking and write-reconciliation
logic, together with theorems settling the specified properties.
-/

set_option linter.unusedVariables false

/-- ASCII whitespace test used to model Python `str.strip`. -/
def isWs (c : Char) : Bool := c = ' ' || c = '\t' || c = '\n' || c = '\r'

/-- Model of Python `str(x).strip()` applied to a string value. -/
def pyStrip (s : String) : String :=
  ⟨((s.data.dropWhile isWs).reverse.dropWhile isWs).reverse⟩

/-- Model of Python `s.replace('Z', '+00:00')` (every occurrence replaced), as
performed by `calculate_resolution_time` before parsing a timestamp. -/
def replaceZ (s : String) : String :=
  ⟨s.data.foldr (fun c acc =>
    if c = 'Z' then '+' :: '0' :: '0' :: ':' :: '0' :: '0' :: acc else c :: acc) []⟩

/-- Value of a decimal digit character, `none` for a non-digit. -/
def digitVal? (c : Char) : Option Nat :=
  if '0'.toNat ≤ c.toNat ∧ c.toNat ≤ '9'.toNat then some (c.toNat - '0'.toNat) else none

/-- Read exactly two decimal digits. -/
def read2 : List Char → Option (Nat × List Char)
  | a :: b :: r => do
    let x ← digitVal? a
    let y ← digitVal? b
    pure (10 * x + y, r)
  | _ => none

/-- Read exactly four decimal digits. -/
def read4 (cs : List Char) : Option (Nat × List Char) := do
  let (a, r) ← read2 cs
  let (b, r') ← read2 r
  pure (100 * a + b, r')

/-- Consume one expected character. -/
def expectCh (c : Char) : List Char → Option (List Char)
  | x :: r => if x = c then some r else none
  | [] => none

/-- Proleptic Gregorian leap-year test. -/
def isLeap (y : Nat) : Bool := (y % 4 = 0 && y % 100 ≠ 0) || y % 400 = 0

/-- Number of days in a month of the proleptic Gregorian calendar. -/
def daysInMonth (y m : Nat) : Nat :=
  if m = 2 then (if isLeap y then 29 else 28)
  else if m = 4 ∨ m = 6 ∨ m = 9 ∨ m = 11 then 30 else 31

/-- Days since 1970-01-01 of a civil date (y ≥ 1, validated month/day),
by the standard days-from-civil algorithm. -/
def daysFromCivil (y m d : Nat) : Int :=
  let y' := y - (if m ≤ 2 then 1 else 0)
  let era := y' / 400
  let yoe := y' % 400
  let mp := (m + 9) % 12
  let doy := (153 * mp + 2) / 5 + d - 1
  let doe := yoe * 365 + yoe / 4 - yoe / 100 + doy
  ((era * 146097 + doe : Nat) : Int) - 719468

/-- Read an optional UTC offset suffix `±HH:MM` (empty input means offset 0,
which is how a bare naive timestamp is treated for differencing purposes);
returns the offset in seconds. -/
def readOffset : List Char → Option Int
  | [] => some 0
  | s :: r =>
    if s = '+' ∨ s = '-' then
      match read2 r with
      | some (oh, r1) =>
        match expectCh ':' r1 with
        | some r2 =>
          match read2 r2 with
          | some (om, r3) =>
            if r3 = [] ∧ oh ≤ 23 ∧ om ≤ 59 then
              some (if s = '-' then -((oh * 3600 + om * 60 : Nat) : Int)
                    else ((oh * 3600 + om * 60 : Nat) : Int))
            else none
          | none => none
        | none => none
      | none => none
    else none

/-- Model of `datetime.datetime.fromisoformat` on the timestamp shapes this
program feeds it: `YYYY-MM-DDTHH:MM:SS` with an optional `±HH:MM` offset (a
`Z` suffix has already been rewritten to `+00:00` by `replaceZ`). Returns the
instant as seconds relative to 1970-01-01T00:00:00+00:00, or `none` when the
string is malformed, modelling the `ValueError` which the caller catches.
Other ISO-8601 shapes Python would accept (date-only, fractional seconds) do
not occur in this program's data and are treated as malformed here. -/
def parseIso (s : String) : Option Int := do
  let cs := s.data
  let (y, r1) ← read4 cs
  let r2 ← expectCh '-' r1
  let (mo, r3) ← read2 r2
  let r4 ← expectCh '-' r3
  let (d, r5) ← read2 r4
  let r6 ← expectCh 'T' r5
  let (h, r7) ← read2 r6
  let r8 ← expectCh ':' r7
  let (mi, r9) ← read2 r8
  let r10 ← expectCh ':' r9
  let (se, r11) ← read2 r10
  let off ← readOffset r11
  if 1 ≤ y ∧ 1 ≤ mo ∧ mo ≤ 12 ∧ 1 ≤ d ∧ d ≤ daysInMonth y mo ∧ h ≤ 23 ∧ mi ≤ 59 ∧ se ≤ 59 then
    pure (daysFromCivil y mo d * 86400 + ((h * 3600 + mi * 60 + se : Nat) : Int) - off)
  else none

/-- Model of `ClassroomSupabaseSync.calculate_resolution_time`: both
timestamps must be present and non-empty (the Python truthiness test
`if not created_at or not updated_at`), then each is parsed after the `Z`
rewrite; `int(time_diff.total_seconds() / 3600)` truncates toward zero,
modelled by `Int.tdiv` on the exact number of seconds. Any parse failure
yields `none` (the `except` clause returns `None`). -/
def calculate_resolution_time (created_at updated_at : Option String) : Option Int :=
  match created_at, updated_at with
  | some c, some u =>
    if c = "" ∨ u = "" then none
    else
      match parseIso (replaceZ c), parseIso (replaceZ u) with
      | some tc, some tu => some (Int.tdiv (tu - tc) 3600)
      | _, _ => none
  | _, _ => none

/-- Row of the `students` table as read by `refresh_admin_leaderboard`. -/
structure StudentRow where
  github_username : String
  fork_created_at : Option String
  last_updated_at : Option String
  has_fork : Bool
  deriving DecidableEq, Repr

/-- Row of the `grades` table as read by `refresh_admin_leaderboard`. -/
structure GradeRow where
  github_username : String
  assignment_name : String
  points_awarded : Option Int
  deriving DecidableEq, Repr

/-- Row of the `assignments` table as read by `refresh_admin_leaderboard`. -/
structure AssignmentRow where
  name : String
  points_available : Option Int
  deriving DecidableEq, Repr

/-- Per-student leaderboard record assembled by `refresh_admin_leaderboard`
(`ranking_position` is attached after sorting; it is 0 until then). -/
structure Entry where
  github_username : String
  fork_created_at : Option String
  last_updated_at : Option String
  resolution_time_hours : Option Int
  has_fork : Bool
  total_score : Int
  total_possible : Int
  percentage : Int
  assignments_completed : Nat
  ranking_position : Nat
  deriving DecidableEq, Repr

/-- Python truthiness of an optional integer (`None` and `0` are falsy). -/
def truthyInt : Option Int → Bool
  | some v => v != 0
  | none => false

/-- Python truthiness of an optional string (`None` and the empty string are
falsy). -/
def truthyStr : Option String → Bool
  | some s => s != ""
  | none => false

/-- Model of the dict comprehension `{a['name']: a['points_available'] for a
in assignments_result.data if a['points_available']}` followed by
`assignment_points.get(name, 0)`: rows with falsy points are skipped, a later
row overwrites an earlier one with the same name, and a missing key yields
0. -/
def assignmentPoints (asgs : List AssignmentRow) (name : String) : Int :=
  match (asgs.filter (fun a => decide (a.name = name) && truthyInt a.points_available)).getLast? with
  | some a => a.points_available.getD 0
  | none => 0

/-- Round-half-to-even of the rational n / d (for d > 0), modelling Python's
`round` applied to `(total_score / total_possible) * 100`; the rounding acts
on the exact rational value (the intermediate double-precision arithmetic is
not modelled). `/` on `Int` is floor division here since d > 0. -/
def pyRoundDiv (n d : Int) : Int :=
  let f := n / d
  let r2 := 2 * (n - f * d)
  if r2 < d then f
  else if d < r2 then f + 1
  else if f % 2 = 0 then f else f + 1

/-- Grade rows of one student:
`[g for g in grades_result.data if g['github_username'] == github_username]`. -/
def gradesOf (grades : List GradeRow) (username : String) : List GradeRow :=
  grades.filter (fun g => decide (g.github_username = username))

/-- Per-student record as assembled in the body of the
`for student in students_result.data` loop of `refresh_admin_leaderboard`:
`total_score` sums the truthy `points_awarded`, `total_possible` sums the
resolved assignment points over the student's grade rows, `percentage` is
the guarded rounded ratio, `assignments_completed` counts distinct
assignment names, and the resolution time is computed only when `has_fork`
is truthy. -/
def entryFor (grades : List GradeRow) (asgs : List AssignmentRow) (st : StudentRow) : Entry :=
  let studentGrades := gradesOf grades st.github_username
  let total_score :=
    ((studentGrades.filter (fun g => truthyInt g.points_awarded)).map
      (fun g => g.points_awarded.getD 0)).sum
  let total_possible :=
    (studentGrades.map (fun g => assignmentPoints asgs g.assignment_name)).sum
  { github_username := st.github_username
    fork_created_at := st.fork_created_at
    last_updated_at := st.last_updated_at
    resolution_time_hours :=
      if st.has_fork then calculate_resolution_time st.fork_created_at st.last_updated_at
      else none
    has_fork := st.has_fork
    total_score := total_score
    total_possible := total_possible
    percentage := if 0 < total_possible then pyRoundDiv (100 * total_score) total_possible else 0
    assignments_completed := ((studentGrades.map (fun g => g.assignment_name)).dedup).length
    ranking_position := 0 }

/-- The unsorted `leaderboard_data` list: one record per row of the
`students` table, in table order. -/
def buildEntries (studs : List StudentRow) (grades : List GradeRow)
    (asgs : List AssignmentRow) : List Entry :=
  studs.map (entryFor grades asgs)

/-- Primary sort component:
`x['resolution_time_hours'] if x['resolution_time_hours'] is not None else 999999`. -/
def rtKey (e : Entry) : Int :=
  match e.resolution_time_hours with
  | some v => v
  | none => 999999

/-- The composite Python sort key `(rtKey, -percentage, github_username)`;
the username is compared by Unicode code points, so it is carried as its
code-point list. -/
def sortKey (e : Entry) : Int × Int × List Nat :=
  (rtKey e, -e.percentage, e.github_username.data.map Char.toNat)

/-- Strict lexicographic comparison of code-point lists (Python string `<`). -/
def natLexLt : List Nat → List Nat → Bool
  | [], [] => false
  | [], _ :: _ => true
  | _ :: _, [] => false
  | a :: as, b :: bs => if a < b then true else if b < a then false else natLexLt as bs

/-- Strict lexicographic comparison of composite sort keys (Python tuple `<`). -/
def keyLt (a b : Int × Int × List Nat) : Bool :=
  if a.1 < b.1 then true
  else if b.1 < a.1 then false
  else if a.2.1 < b.2.1 then true
  else if b.2.1 < a.2.1 then false
  else natLexLt a.2.2 b.2.2

/-- Total preorder on entries realised by the model of Python's stable
`list.sort(key=...)`: x may precede y exactly when y's key is not strictly
below x's. -/
def entLe (x y : Entry) : Prop := keyLt (sortKey y) (sortKey x) = false

instance : DecidableRel entLe := fun _ _ => instDecidableEqBool _ _

/-- Model of `for i, student in enumerate(leaderboard_data, 1):
student['ranking_position'] = i`, starting the counter at n. -/
def addRanksAux (n : Nat) : List Entry → List Entry
  | [] => []
  | e :: es => { e with ranking_position := n } :: addRanksAux (n + 1) es

/-- The sorted, rank-annotated leaderboard computed by
`refresh_admin_leaderboard` before it is written to the store: a stable sort
of the per-student records by the composite key, then 1-based ranks by
position. -/
def computeLeaderboard (studs : List StudentRow) (grades : List GradeRow)
    (asgs : List AssignmentRow) : List Entry :=
  addRanksAux 1 (List.insertionSort entLe (buildEntries studs grades asgs))

/-- Model of `df['points_available'].max()`: pandas skips missing values and
an all-missing or empty column yields a missing maximum. -/
def pandasMax (vs : List (Option Int)) : Option Int :=
  (vs.filterMap id).foldl
    (fun acc v => match acc with | none => some v | some m => some (max m v)) none

/-- First strictly-positive value of the column in row order, modelling
`df[df['points_available'] > 0]['points_available'].iloc[0]` guarded by the
emptiness test (a missing value never satisfies `> 0`). -/
def firstPositive (vs : List (Option Int)) : Option Int :=
  ((vs.filterMap id).filter (fun v => 0 < v)).head?

/-- Prefix test on code-point lists. -/
def startsWithSeq : List Nat → List Nat → Bool
  | [], _ => true
  | _ :: _, [] => false
  | a :: as, b :: bs => a == b && startsWithSeq as bs

/-- Substring test on code-point lists, modelling Python `needle in s`. -/
def containsSeq (pat : List Nat) : List Nat → Bool
  | [] => pat.isEmpty
  | c :: rest => startsWithSeq pat (c :: rest) || containsSeq pat rest

/-- ASCII lowercasing of a code point, modelling `str.lower()` on the ASCII
slugs and usernames this program handles. -/
def lowerNat (n : Nat) : Nat := if 65 ≤ n ∧ n ≤ 90 then n + 32 else n

/-- Model of `'part-2' in formatted_name.lower()`. -/
def containsPart2 (s : String) : Bool :=
  containsSeq ("part-2".data.map Char.toNat) (s.data.map (fun c => lowerNat c.toNat))

/-- Model of the `points_available` resolution block of
`process_assignments_in_memory`: take the column maximum; if it is zero or
missing, take the first strictly-positive value; failing that, use 100 when
the formatted assignment name contains `part-2`; otherwise leave the points
unresolved. `vs` is the `points_available` column in row order. -/
def resolvePoints (vs : List (Option Int)) (slug : String) : Option Int :=
  if pandasMax vs = some 0 ∨ pandasMax vs = none then
    match firstPositive vs with
    | some v => some v
    | none => if containsPart2 slug then some 100 else none
  else pandasMax vs

/-- Step (2)-(4) of the specification's resolution precedence: the first
strictly-positive value among rows, else the 100 fallback for a slug
containing `part-2`, else `None`. -/
def specFallback (vs : List (Option Int)) (slug : String) : Option Int :=
  match firstPositive vs with
  | some v => some v
  | none => if containsPart2 slug then some 100 else none

/-- Resolution policy as worded in the specification, for comparison with
`resolvePoints` (which is read off the code): (1) the maximum value seen
across all rows; (2) if that maximum is zero or absent, the first
strictly-positive value; (3) otherwise the documented fallback of 100 for a
slug containing `part-2`; (4) otherwise `None`. -/
def resolvePointsSpec (vs : List (Option Int)) (slug : String) : Option Int :=
  match pandasMax vs with
  | some m => if m = 0 then specFallback vs slug else some m
  | none => specFallback vs slug

/-- Raw cell value of a grades extract column, as pandas hands it to the
preparation loops: a number, a missing value, or an uncoercible string. -/
inductive RawVal where
  | intV (n : Int)
  | nan
  | strV (s : String)
  deriving DecidableEq, Repr

/-- Digits-only numeral reading used by `pyIntOfString`. -/
def digitsToNat (cs : List Char) : Option Nat :=
  if cs = [] then none
  else cs.foldl (fun acc c =>
    match acc, digitVal? c with
    | some a, some d => some (10 * a + d)
    | _, _ => none) (some 0)

/-- Model of Python `int(s)` on a string: surrounding whitespace stripped,
an optional sign, then decimal digits; anything else raises `ValueError`,
modelled as `none`. -/
def pyIntOfString (s : String) : Option Int :=
  let cs := ((s.data.dropWhile isWs).reverse.dropWhile isWs).reverse
  match cs with
  | '+' :: rest => (digitsToNat rest).map (fun n => (n : Int))
  | '-' :: rest => (digitsToNat rest).map (fun n => -(n : Int))
  | _ => (digitsToNat cs).map (fun n => (n : Int))

/-- Raw row of a grades extract as iterated by `sync_grades_to_supabase`. -/
structure RawGrade where
  github_username : String
  assignment_name : String
  points_awarded : RawVal
  deriving DecidableEq, Repr

/-- Prepared grade record as built for the `grades` upsert. -/
structure GradeRec where
  github_username : String
  assignment_name : String
  points_awarded : Option Int
  updated_at : String
  deriving DecidableEq, Repr

/-- Model of one iteration of the preparation loop of
`sync_grades_to_supabase`: identifiers stringified and stripped,
`points_awarded` becomes `int(points_awarded) if pd.notna(points_awarded)
else None`; a row whose value is not coercible raises `ValueError`, which is
caught, logged and skipped (`continue`), modelled as `none`. -/
def coerceGrade (now : String) (r : RawGrade) : Option GradeRec :=
  match r.points_awarded with
  | .nan => some ⟨pyStrip r.github_username, pyStrip r.assignment_name, none, now⟩
  | .intV n => some ⟨pyStrip r.github_username, pyStrip r.assignment_name, some n, now⟩
  | .strV s =>
    match pyIntOfString s with
    | some n => some ⟨pyStrip r.github_username, pyStrip r.assignment_name, some n, now⟩
    | none => none

/-- The `grades_data` list built by `sync_grades_to_supabase`: every row that
coerces, in order; uncoercible rows are dropped. -/
def preparedGrades (now : String) (raw : List RawGrade) : List GradeRec :=
  raw.filterMap (coerceGrade now)

/-- Student dictionary as handed to `sync_students_to_supabase`. -/
structure StudentInput where
  github_username : String
  fork_created_at : Option String
  last_updated_at : Option String
  resolution_time_hours : Option Int
  has_fork : Bool
  deriving DecidableEq, Repr

/-- Prepared student record as built for the `students` upsert. -/
structure StudentRec where
  github_username : String
  fork_created_at : Option String
  last_updated_at : Option String
  resolution_time_hours : Option Int
  updated_at : String
  deriving DecidableEq, Repr

/-- Model of the preparation loop of `sync_students_to_supabase`: username
stringified and stripped, `updated_at` set to the current time, each
timestamp included only when present and truthy, the resolution time only
when not `None` (an absent optional field is `none` either way). -/
def prepStudent (now : String) (s : StudentInput) : StudentRec :=
  { github_username := pyStrip s.github_username
    fork_created_at := if truthyStr s.fork_created_at then s.fork_created_at else none
    last_updated_at := if truthyStr s.last_updated_at then s.last_updated_at else none
    resolution_time_hours := s.resolution_time_hours
    updated_at := now }

/-- Assignment dictionary as handed to `sync_assignments_to_supabase`. -/
structure AssignmentInput where
  name : String
  points_available : Option Int
  deriving DecidableEq, Repr

/-- Prepared assignment record as built for the `assignments` upsert. -/
structure AssignmentRec where
  name : String
  points_available : Option Int
  updated_at : String
  deriving DecidableEq, Repr

/-- Model of the preparation loop of `sync_assignments_to_supabase`. -/
def prepAssignment (now : String) (a : AssignmentInput) : AssignmentRec :=
  ⟨pyStrip a.name, a.points_available, now⟩

/-- A call made against the store's write interface. -/
inductive TableOp where
  | upsertStudents (rows : List StudentRec)
  | upsertAssignments (rows : List AssignmentRec)
  | upsertGrades (rows : List GradeRec)
  | clearLeaderboard
  | insertLeaderboard (rows : List Entry)
  | upsertLeaderboardOne (row : Entry)
  deriving DecidableEq, Repr

/-- Whether a store call is an upsert keyed by the entity's natural key. -/
def TableOp.isUpsert : TableOp → Bool
  | .upsertStudents _ => true
  | .upsertAssignments _ => true
  | .upsertGrades _ => true
  | .upsertLeaderboardOne _ => true
  | .clearLeaderboard => false
  | .insertLeaderboard _ => false

/-- Store calls issued by `sync_students_to_supabase` on the successful
attempt: one upsert with `on_conflict='github_username'`; empty input
returns before any call. -/
def syncStudentsOps (now : String) (studs : List StudentInput) : List TableOp :=
  if studs = [] then []
  else
    let data := studs.map (prepStudent now)
    if data = [] then [] else [.upsertStudents data]

/-- Store calls issued by `sync_assignments_to_supabase` on the successful
attempt: one upsert with `on_conflict='name'`. -/
def syncAssignmentsOps (now : String) (asgs : List AssignmentInput) : List TableOp :=
  if asgs = [] then []
  else
    let data := asgs.map (prepAssignment now)
    if data = [] then [] else [.upsertAssignments data]

/-- Store calls issued by `sync_grades_to_supabase` on the successful
attempt: one upsert with `on_conflict='github_username,assignment_name'`. -/
def syncGradesOps (now : String) (raw : List RawGrade) : List TableOp :=
  if raw = [] then []
  else
    let data := preparedGrades now raw
    if data = [] then [] else [.upsertGrades data]

/-- Batching `for i in range(0, len(leaderboard_data), batch_size)` with
`batch_size = 10`; fuel-structured on the list length so that it computes by
kernel reduction (each step consumes at least one element). -/
def chunksAux : Nat → List α → List (List α)
  | 0, _ => []
  | _, [] => []
  | fuel + 1, a :: l => ((a :: l).take 10) :: chunksAux fuel ((a :: l).drop 10)

/-- The batches of 10 of a list, in order. -/
def chunks10 (l : List α) : List (List α) := chunksAux l.length l

/-- Store calls issued by the write phase of `refresh_admin_leaderboard`:
the best-effort clear, then per batch of 10 an insert attempt, followed —
when that insert fails (`batchOk` false) — by one individual
`on_conflict='github_username'` upsert attempt per record of the batch. -/
def refreshWriteOps (batchOk : List Entry → Bool) (rows : List Entry) : List TableOp :=
  TableOp.clearLeaderboard ::
    ((chunks10 rows).map (fun b =>
      if batchOk b then [TableOp.insertLeaderboard b]
      else TableOp.insertLeaderboard b :: b.map TableOp.upsertLeaderboardOne)).flatten

/-- Upsert of one record into a table, keyed by `key`: replaces every row
carrying the same key in place, otherwise appends the record. -/
def upsertOne (key : α → κ) [DecidableEq κ] (t : List α) (r : α) : List α :=
  if t.any (fun x => decide (key x = key r)) then
    t.map (fun x => if key x = key r then r else x)
  else t ++ [r]

/-- Left-to-right upsert of a batch of records. -/
def upsertAll (key : α → κ) [DecidableEq κ] (t : List α) (rows : List α) : List α :=
  rows.foldl (upsertOne key) t

/-- Effect of the leaderboard write phase on the `admin_leaderboard` table:
best-effort clear (`clearOk` false models the caught clear exception, which
leaves the table as it was), then per 10-row batch either a successful
insert (append) or, on its failure, one-by-one upserts keyed by
`github_username`, skipping records whose individual upsert also fails. -/
def lbWritePhase (clearOk : Bool) (batchOk : List Entry → Bool) (recOk : Entry → Bool)
    (table : List Entry) (rows : List Entry) : List Entry :=
  (chunks10 rows).foldl (fun t b =>
    if batchOk b then t ++ b
    else b.foldl (fun t' r =>
      if recOk r then upsertOne Entry.github_username t' r else t') t)
    (if clearOk then [] else table)

/-- The four logical tables of the persistent store as
`refresh_admin_leaderboard` sees them. -/
structure Store where
  students : List StudentRow
  assignments : List AssignmentRow
  grades : List GradeRow
  leaderboard : List Entry
  deriving DecidableEq, Repr

/-- Model of `refresh_admin_leaderboard` as a transformer of the persistent
store: an empty `students` query result returns early, performing no write
at all; otherwise the computed leaderboard is written through
`lbWritePhase`. -/
def refreshStore (clearOk : Bool) (batchOk : List Entry → Bool) (recOk : Entry → Bool)
    (s : Store) : Store :=
  if s.students = [] then s
  else
    let newRows := computeLeaderboard s.students s.grades s.assignments
    { s with leaderboard := lbWritePhase clearOk batchOk recOk s.leaderboard newRows }

/-- The written state of the four tables, holding the record shapes the
writers produce. -/
structure WStore where
  students : List StudentRec
  assignments : List AssignmentRec
  grades : List GradeRec
  leaderboard : List Entry
  deriving DecidableEq, Repr

/-- Store mutation performed by one full successful write phase of the sync:
the three natural-key upserts of `sync_students_to_supabase`,
`sync_assignments_to_supabase` and `sync_grades_to_supabase`, then the
leaderboard clear-and-insert with every store call succeeding. -/
def applyRunWrites (s : WStore) (studs : List StudentRec) (asgs : List AssignmentRec)
    (grds : List GradeRec) (lb : List Entry) : WStore :=
  { students := upsertAll StudentRec.github_username s.students studs
    assignments := upsertAll AssignmentRec.name s.assignments asgs
    grades := upsertAll (fun g => (g.github_username, g.assignment_name)) s.grades grds
    leaderboard := lbWritePhase true (fun _ => true) (fun _ => true) s.leaderboard lb }

/-- Sum of the non-null `points_awarded` values, as the specification words
`total_score`. -/
def specTotalScore (gs : List GradeRow) : Int :=
  (gs.filterMap (fun g => g.points_awarded)).sum

/-- Points of one assignment as the specification words it: the
`points_available` of the assignment row of that name (the last one when
names repeat), an unresolved value contributing 0. -/
def specAssignmentPoints (asgs : List AssignmentRow) (name : String) : Int :=
  match (asgs.filter (fun a => decide (a.name = name))).getLast? with
  | some a => a.points_available.getD 0
  | none => 0

/-- Sum of `points_available` over the distinct assignments the student has
a grade record for, as the specification words `total_possible`. -/
def specTotalPossible (asgs : List AssignmentRow) (gs : List GradeRow) : Int :=
  (((gs.map (fun g => g.assignment_name)).dedup).map (specAssignmentPoints asgs)).sum

/-- An entry with its rank annotation removed (set back to the pre-sort
value 0), for permutation statements about the sorted leaderboard. -/
def stripRank (e : Entry) : Entry := { e with ranking_position := 0 }

theorem natLexLt_asymm : ∀ (a b : List Nat), natLexLt a b = true → natLexLt b a = false := by
  intro a
  induction a with
  | nil => intro b h; cases b <;> simp_all [natLexLt]
  | cons x xs ih =>
    intro b h
    cases b with
    | nil => simp [natLexLt] at h
    | cons y ys =>
      simp only [natLexLt] at h ⊢
      by_cases hxy : x < y
      · have hyx : ¬ y < x := by omega
        simp [hxy, hyx]
      · by_cases hyx : y < x
        · simp [hxy, hyx] at h
        · simp only [if_neg hxy, if_neg hyx] at h ⊢
          exact ih ys h

theorem natLexLt_trans : ∀ (a b c : List Nat),
    natLexLt a b = true → natLexLt b c = true → natLexLt a c = true := by
  intro a
  induction a with
  | nil =>
    intro b c hab hbc
    cases b with
    | nil => simp [natLexLt] at hab
    | cons y ys => cases c with
      | nil => simp [natLexLt] at hbc
      | cons z zs => simp [natLexLt]
  | cons x xs ih =>
    intro b c hab hbc
    cases b with
    | nil => simp [natLexLt] at hab
    | cons y ys =>
      cases c with
      | nil => simp [natLexLt] at hbc
      | cons z zs =>
        simp only [natLexLt] at hab hbc ⊢
        by_cases hxy : x < y
        · by_cases hyz : y < z
          · have hxz : x < z := by omega
            simp [hxz]
          · by_cases hzy : z < y
            · simp [hyz, hzy] at hbc
            · have hyzeq : y = z := by omega
              subst hyzeq
              simp [hxy]
        · by_cases hyx : y < x
          · simp [hxy, hyx] at hab
          · have hxyeq : x = y := by omega
            subst hxyeq
            by_cases hxz : x < z
            · simp [hxz]
            · by_cases hzx : z < x
              · simp [hxz, hzx] at hbc
              · simp only [if_neg hxy, if_neg hyx] at hab
                simp only [if_neg hxz, if_neg hzx] at hbc ⊢
                exact ih ys zs hab hbc

theorem natLexLt_conn : ∀ (a b : List Nat),
    natLexLt a b = false → natLexLt b a = false → a = b := by
  intro a
  induction a with
  | nil =>
    intro b hab hba
    cases b with
    | nil => rfl
    | cons y ys => simp [natLexLt] at hab
  | cons x xs ih =>
    intro b hab hba
    cases b with
    | nil => simp [natLexLt] at hba
    | cons y ys =>
      simp only [natLexLt] at hab hba
      by_cases hxy : x < y
      · simp [hxy] at hab
      · by_cases hyx : y < x
        · simp [hxy, hyx] at hba
        · have hxyeq : x = y := by omega
          subst hxyeq
          simp only [if_neg hxy, if_neg hyx] at hab hba
          rw [ih ys hab hba]

theorem keyLt_iff (a b : Int × Int × List Nat) :
    keyLt a b = true ↔
      a.1 < b.1 ∨ (a.1 = b.1 ∧ (a.2.1 < b.2.1 ∨ (a.2.1 = b.2.1 ∧ natLexLt a.2.2 b.2.2 = true))) := by
  obtain ⟨a1, a2, a3⟩ := a
  obtain ⟨b1, b2, b3⟩ := b
  simp only [keyLt]
  rcases lt_trichotomy a1 b1 with h1 | h1 | h1
  · have h1' : ¬ b1 < a1 := by omega
    simp [h1, h1']
  · subst h1
    have e : ¬ a1 < a1 := by omega
    simp only [if_neg e]
    rcases lt_trichotomy a2 b2 with h2 | h2 | h2
    · have h2' : ¬ b2 < a2 := by omega
      simp [h2, h2']
    · subst h2
      have e2 : ¬ a2 < a2 := by omega
      simp [e2]
    · have h2' : ¬ a2 < b2 := by omega
      have hne2 : a2 ≠ b2 := by omega
      simp [h2, h2', hne2]
  · have h1' : ¬ a1 < b1 := by omega
    have hne : a1 ≠ b1 := by omega
    simp [h1, h1', hne]

theorem keyLt_asymm (a b : Int × Int × List Nat) (h : keyLt a b = true) :
    keyLt b a = false := by
  rw [Bool.eq_false_iff]
  intro h'
  rw [keyLt_iff] at h h'
  rcases h with h1 | ⟨e1, h2⟩
  · rcases h' with h1' | ⟨e1', _⟩ <;> omega
  · rcases h' with h1' | ⟨e1', h2'⟩
    · omega
    · rcases h2 with h2 | ⟨e2, h3⟩
      · rcases h2' with h2' | ⟨e2', _⟩ <;> omega
      · rcases h2' with h2' | ⟨e2', h3'⟩
        · omega
        · have hfa := natLexLt_asymm _ _ h3
          rw [h3'] at hfa
          exact Bool.noConfusion hfa

theorem keyLt_trans (a b c : Int × Int × List Nat) (hab : keyLt a b = true)
    (hbc : keyLt b c = true) : keyLt a c = true := by
  rw [keyLt_iff] at hab hbc ⊢
  rcases hab with h1 | ⟨e1, hab2⟩ <;> rcases hbc with g1 | ⟨f1, hbc2⟩
  · left; omega
  · left; omega
  · left; omega
  · right
    refine ⟨by omega, ?_⟩
    rcases hab2 with h2 | ⟨e2, hab3⟩ <;> rcases hbc2 with g2 | ⟨f2, hbc3⟩
    · left; omega
    · left; omega
    · left; omega
    · right
      exact ⟨by omega, natLexLt_trans _ _ _ hab3 hbc3⟩

theorem keyLt_conn (a b : Int × Int × List Nat) (hab : keyLt a b = false)
    (hba : keyLt b a = false) : a = b := by
  rw [Bool.eq_false_iff] at hab hba
  have hab' : ¬ (a.1 < b.1 ∨ a.1 = b.1 ∧ (a.2.1 < b.2.1 ∨ a.2.1 = b.2.1 ∧
      natLexLt a.2.2 b.2.2 = true)) := fun hh => hab ((keyLt_iff a b).mpr hh)
  have hba' : ¬ (b.1 < a.1 ∨ b.1 = a.1 ∧ (b.2.1 < a.2.1 ∨ b.2.1 = a.2.1 ∧
      natLexLt b.2.2 a.2.2 = true)) := fun hh => hba ((keyLt_iff b a).mpr hh)
  push_neg at hab' hba'
  obtain ⟨hab1, hab2⟩ := hab'
  obtain ⟨hba1, hba2⟩ := hba'
  have e1 : a.1 = b.1 := by omega
  obtain ⟨hab3, hab4⟩ := hab2 e1
  obtain ⟨hba3, hba4⟩ := hba2 e1.symm
  have e2 : a.2.1 = b.2.1 := by omega
  have hab5 := hab4 e2
  have hba5 := hba4 e2.symm
  have hab6 : natLexLt a.2.2 b.2.2 = false := by
    cases hh : natLexLt a.2.2 b.2.2 with
    | false => rfl
    | true => exact absurd hh hab5
  have hba6 : natLexLt b.2.2 a.2.2 = false := by
    cases hh : natLexLt b.2.2 a.2.2 with
    | false => rfl
    | true => exact absurd hh hba5
  have e3 := natLexLt_conn _ _ hab6 hba6
  exact Prod.ext e1 (Prod.ext e2 e3)

theorem entLe_total : ∀ (x y : Entry), entLe x y ∨ entLe y x := by
  intro x y
  unfold entLe
  cases h : keyLt (sortKey y) (sortKey x) with
  | false => exact Or.inl rfl
  | true => exact Or.inr (keyLt_asymm _ _ h)

theorem entLe_trans : ∀ (x y z : Entry), entLe x y → entLe y z → entLe x z := by
  intro x y z hxy hyz
  unfold entLe at hxy hyz ⊢
  by_contra hzx
  have hzx' : keyLt (sortKey z) (sortKey x) = true := by
    cases h : keyLt (sortKey z) (sortKey x) with
    | false => exact absurd h hzx
    | true => rfl
  by_cases hxy' : keyLt (sortKey x) (sortKey y) = true
  · have hzy : keyLt (sortKey z) (sortKey y) = true := keyLt_trans _ _ _ hzx' hxy'
    rw [hzy] at hyz
    exact Bool.noConfusion hyz
  · have hxy'' : keyLt (sortKey x) (sortKey y) = false := by
      cases h : keyLt (sortKey x) (sortKey y) with
      | false => rfl
      | true => exact absurd h hxy'
    have hk : sortKey y = sortKey x := keyLt_conn _ _ hxy hxy''
    rw [hk] at hyz
    rw [hyz] at hzx'
    exact Bool.noConfusion hzx'

theorem mem_addRanksAux {b : Entry} : ∀ (l : List Entry) (n : Nat), b ∈ addRanksAux n l →
    ∃ b' ∈ l, ∃ k, b = { b' with ranking_position := k } := by
  intro l
  induction l with
  | nil => intro n h; simp [addRanksAux] at h
  | cons e es ih =>
    intro n h
    simp only [addRanksAux, List.mem_cons] at h
    rcases h with h | h
    · exact ⟨e, List.mem_cons_self e es, n, h⟩
    · obtain ⟨b', hb', k, hk⟩ := ih (n + 1) h
      exact ⟨b', List.mem_cons_of_mem e hb', k, hk⟩

theorem sorted_addRanksAux : ∀ (l : List Entry) (n : Nat), List.Sorted entLe l →
    List.Sorted entLe (addRanksAux n l) := by
  intro l
  induction l with
  | nil => intro n _; simp [addRanksAux]
  | cons e es ih =>
    intro n h
    rw [List.sorted_cons] at h
    simp only [addRanksAux]
    rw [List.sorted_cons]
    constructor
    · intro b hb
      obtain ⟨b', hb', k, rfl⟩ := mem_addRanksAux es (n + 1) hb
      exact h.1 b' hb'
    · exact ih (n + 1) h.2

theorem map_rank_addRanksAux : ∀ (l : List Entry) (n : Nat),
    (addRanksAux n l).map Entry.ranking_position = List.range' n l.length := by
  intro l
  induction l with
  | nil => intro n; simp [addRanksAux, List.range']
  | cons e es ih =>
    intro n
    simp only [addRanksAux, List.map_cons, List.length_cons, List.range', ih]

theorem map_stripRank_addRanksAux : ∀ (l : List Entry) (n : Nat),
    (addRanksAux n l).map stripRank = l.map stripRank := by
  intro l
  induction l with
  | nil => intro n; rfl
  | cons e es ih =>
    intro n
    simp only [addRanksAux, List.map_cons, ih]
    rfl

theorem map_stripRank_buildEntries (studs : List StudentRow) (grades : List GradeRow)
    (asgs : List AssignmentRow) :
    (buildEntries studs grades asgs).map stripRank = buildEntries studs grades asgs := by
  unfold buildEntries
  rw [List.map_map]
  exact List.map_congr_left (fun st _ => rfl)

theorem chunksAux_flatten : ∀ (fuel : Nat) (l : List α), l.length ≤ fuel →
    (chunksAux fuel l).flatten = l := by
  intro fuel
  induction fuel with
  | zero =>
    intro l h
    have hl : l = [] := List.eq_nil_of_length_eq_zero (Nat.le_zero.mp h)
    subst hl; rfl
  | succ fuel ih =>
    intro l h
    cases l with
    | nil => rfl
    | cons a l' =>
      have hlen : ((a :: l').drop 10).length ≤ fuel := by
        simp only [List.length_drop, List.length_cons]
        simp only [List.length_cons] at h
        omega
      simp only [chunksAux, List.flatten_cons]
      rw [ih _ hlen, List.take_append_drop]

theorem chunks10_flatten (l : List α) : (chunks10 l).flatten = l :=
  chunksAux_flatten l.length l le_rfl

theorem foldl_append_eq : ∀ (cs : List (List α)) (t0 : List α),
    cs.foldl (fun t b => t ++ b) t0 = t0 ++ cs.flatten := by
  intro cs
  induction cs with
  | nil => intro t0; simp
  | cons b cs ih => intro t0; simp [ih]

theorem lbWritePhase_batches_ok (clearOk : Bool) (recOk : Entry → Bool)
    (table rows : List Entry) :
    lbWritePhase clearOk (fun _ => true) recOk table rows =
      (if clearOk then [] else table) ++ rows := by
  unfold lbWritePhase
  have hfun : (fun (t : List Entry) (b : List Entry) =>
      if (fun _ : List Entry => true) b then t ++ b
      else b.foldl (fun t' r =>
        if recOk r then upsertOne Entry.github_username t' r else t') t) =
      fun t b => t ++ b := by
    funext t b
    simp
  rw [hfun, foldl_append_eq, chunks10_flatten]

/-- C4: for every extract, `points_available` is resolved by the exact
precedence the specification states — the column maximum; if that is zero or
absent, the first strictly-positive value; otherwise 100 for a slug
containing `part-2`; otherwise `None` — and in particular `[0, 0, 50, 50]`
resolves to 50 and an all-zero extract with a `part-2` slug resolves to
100. -/
theorem c4_points_available_resolution :
    (∀ (vs : List (Option Int)) (slug : String),
      resolvePoints vs slug = resolvePointsSpec vs slug)
    ∧ resolvePoints [some 0, some 0, some 50, some 50] "moria-part-1" = some 50
    ∧ resolvePoints [some 0, some 0, some 0, some 0] "moria-part-2" = some 100 := by
  refine ⟨?_, by decide, by decide⟩
  intro vs slug
  unfold resolvePoints resolvePointsSpec specFallback
  cases h : pandasMax vs with
  | none => simp [h]
  | some m =>
    by_cases hm : m = 0
    · subst hm; simp [h]
    · simp [h, hm]

/-- C8 (amended): the working set fed to the ranker is a left outer join on
`github_username` from the `students` table: the leaderboard carries exactly
one entry per students-table row — so a student with lifecycle data but no
grade records yields an entry, while a grade record whose username is absent
from the `students` table yields none. -/
theorem c8_left_join_on_students :
    (∀ (studs : List StudentRow) (grades : List GradeRow) (asgs : List AssignmentRow),
      (buildEntries studs grades asgs).map Entry.github_username =
        studs.map StudentRow.github_username)
    ∧ (buildEntries [⟨"alice", some "2024-01-01T00:00:00Z", none, true⟩]
        [⟨"bob", "hw", some 10⟩] []).map Entry.github_username = ["alice"] := by
  constructor
  · intro studs grades asgs
    unfold buildEntries
    rw [List.map_map]
    exact List.map_congr_left (fun st _ => rfl)
  · decide

/-- C8 counterexample: the join is not a full outer join — `bob` has a grade
record but no `students`-table row, and receives no leaderboard entry. -/
theorem c8_counterexample :
    (⟨"bob", "hw", some 10⟩ : GradeRow) ∈ ([⟨"bob", "hw", some 10⟩] : List GradeRow)
    ∧ ¬ (∃ e ∈ buildEntries [⟨"alice", some "2024-01-01T00:00:00Z", none, true⟩]
          [⟨"bob", "hw", some 10⟩] [], e.github_username = "bob") := by
  constructor
  · decide
  · decide

/-- C10: when the `students` query returns no rows,
`refresh_admin_leaderboard` returns early: neither the clear nor any insert
runs, and the whole store — in particular the persisted leaderboard table —
is left exactly as it was. -/
theorem c10_empty_students_no_write (clearOk : Bool) (batchOk : List Entry → Bool)
    (recOk : Entry → Bool) (s : Store) (h : s.students = []) :
    refreshStore clearOk batchOk recOk s = s := by
  simp [refreshStore, h]

theorem c10_empty_students_no_write_witness :
    refreshStore true (fun _ => true) (fun _ => true)
      ⟨[], [], [], [⟨"stale", none, none, none, false, 0, 0, 0, 0, 1⟩]⟩ =
      ⟨[], [], [], [⟨"stale", none, none, none, false, 0, 0, 0, 0, 1⟩]⟩ :=
  c10_empty_students_no_write true (fun _ => true) (fun _ => true) _ rfl

/-- C1 (amended): the leaderboard is a stable sort of all students by the
composite key — resolution time ascending with the fixed sentinel 999999
standing in for a missing time (not a value larger than every possible
time), then percentage descending, then username ascending — and 1-based
dense unique ranking positions are assigned by sorted position; on the
four-student example A(10h, 80), B(10h, 95), C(none, 100), D(5h, 50) the
resulting order is D, B, A, C. -/
theorem c1_leaderboard_ordering :
    (∀ (studs : List StudentRow) (grades : List GradeRow) (asgs : List AssignmentRow),
      ((computeLeaderboard studs grades asgs).map stripRank).Perm
          (buildEntries studs grades asgs)
      ∧ List.Sorted entLe (computeLeaderboard studs grades asgs)
      ∧ (computeLeaderboard studs grades asgs).map Entry.ranking_position =
          List.range' 1 studs.length)
    ∧ (computeLeaderboard
        [⟨"a", some "2024-01-01T00:00:00Z", some "2024-01-01T10:00:00Z", true⟩,
         ⟨"b", some "2024-01-01T00:00:00Z", some "2024-01-01T10:00:00Z", true⟩,
         ⟨"c", none, none, false⟩,
         ⟨"d", some "2024-01-01T00:00:00Z", some "2024-01-01T05:00:00Z", true⟩]
        [⟨"a", "hw", some 80⟩, ⟨"b", "hw", some 95⟩, ⟨"c", "hw", some 100⟩,
         ⟨"d", "hw", some 50⟩]
        [⟨"hw", some 100⟩]).map (fun e => (e.github_username, e.ranking_position)) =
      [("d", 1), ("b", 2), ("a", 3), ("c", 4)] := by
  constructor
  · intro studs grades asgs
    refine ⟨?_, ?_, ?_⟩
    · unfold computeLeaderboard
      rw [map_stripRank_addRanksAux]
      have hp := (List.perm_insertionSort entLe (buildEntries studs grades asgs)).map stripRank
      rw [map_stripRank_buildEntries] at hp
      exact hp
    · unfold computeLeaderboard
      exact sorted_addRanksAux _ 1
        (@List.sorted_insertionSort Entry entLe _ ⟨entLe_total⟩ ⟨entLe_trans⟩ _)
    · unfold computeLeaderboard
      rw [map_rank_addRanksAux]
      congr 1
      rw [(List.perm_insertionSort entLe _).length_eq]
      simp [buildEntries]
  · decide

/-- C1 counterexample: the `None` sentinel is the fixed constant 999999, not
a value larger than every real resolution time — a student with the real
resolution time 1051896 h (a 1900→2020 fork) sorts after the student with no
resolution time, so students lacking a resolution time do not sort last. -/
theorem c1_counterexample :
    (computeLeaderboard
      [⟨"e", some "1900-01-01T00:00:00Z", some "2020-01-01T00:00:00Z", true⟩,
       ⟨"f", none, none, false⟩] [] []).map
      (fun e => (e.github_username, e.resolution_time_hours, e.ranking_position)) =
    [("f", none, 1), ("e", some 1051896, 2)] := by decide

/-- C3 counterexample: for a student whose fork flag is true and whose two
timestamps parse but where the last update precedes creation, the code
truncates toward zero (`int()`), producing 0, while
floor((last_update − creation) in seconds / 3600) is −1. -/
theorem c3_counterexample :
    parseIso (replaceZ "2024-01-01T01:00:00Z") = some 1704070800
    ∧ parseIso (replaceZ "2024-01-01T00:30:00Z") = some 1704069000
    ∧ (entryFor [] [] ⟨"s", some "2024-01-01T01:00:00Z", some "2024-01-01T00:30:00Z",
        true⟩).resolution_time_hours = some 0
    ∧ ((1704069000 - 1704070800 : Int) / 3600) = -1
    ∧ some (0 : Int) ≠ some (-1 : Int) := by decide

/-- C5 counterexample: `percentage` is not always between 0 and 100 — a
student awarded 50 points on an assignment recorded with 10 available points
gets percentage 500. -/
theorem c5_counterexample :
    (buildEntries [⟨"s", none, none, false⟩] [⟨"s", "x", some 50⟩]
      [⟨"x", some 10⟩]).map Entry.percentage = [500]
    ∧ ¬ ((500 : Int) ≤ 100) := by decide

/-- C2 counterexample: not every store write is an upsert — already on a
one-entry leaderboard, the write trace of `refresh_admin_leaderboard`
contains a plain batch insert (and the best-effort clear), so the run's
writes are not exclusively upserts keyed by natural keys. -/
theorem c2_counterexample :
    TableOp.insertLeaderboard [⟨"s", none, none, none, false, 0, 0, 0, 0, 1⟩] ∈
        refreshWriteOps (fun _ => true) [⟨"s", none, none, none, false, 0, 0, 0, 0, 1⟩]
    ∧ (refreshWriteOps (fun _ => true)
        [⟨"s", none, none, none, false, 0, 0, 0, 0, 1⟩]).all TableOp.isUpsert = false := by
  decide

theorem entryFor_rt (grades : List GradeRow) (asgs : List AssignmentRow) (st : StudentRow) :
    (entryFor grades asgs st).resolution_time_hours =
      if st.has_fork then calculate_resolution_time st.fork_created_at st.last_updated_at
      else none := rfl

/-- C3 (amended): for every student with fork flag true whose two timestamps
parse, `resolution_time_hours` is the Python `int()` truncation toward zero
of (last_update − creation)/3600 seconds — equal to the floor whenever the
update is not earlier than the creation; a malformed timestamp yields `None`
rather than a thrown failure, and `has_fork = false` always yields `None`. -/
theorem c3_resolution_time (st : StudentRow) (grades : List GradeRow)
    (asgs : List AssignmentRow) :
    (∀ c u tc tu, st.has_fork = true →
      st.fork_created_at = some c → st.last_updated_at = some u →
      parseIso (replaceZ c) = some tc → parseIso (replaceZ u) = some tu →
      (entryFor grades asgs st).resolution_time_hours = some (Int.tdiv (tu - tc) 3600)
      ∧ (tc ≤ tu →
          (entryFor grades asgs st).resolution_time_hours = some ((tu - tc) / 3600)))
    ∧ (st.has_fork = false → (entryFor grades asgs st).resolution_time_hours = none)
    ∧ (∀ c u, st.has_fork = true → st.fork_created_at = some c →
        st.last_updated_at = some u →
        (parseIso (replaceZ c) = none ∨ parseIso (replaceZ u) = none) →
        (entryFor grades asgs st).resolution_time_hours = none) := by
  refine ⟨?_, ?_, ?_⟩
  · intro c u tc tu hf hc hu hpc hpu
    have hcne : ¬ (c = "" ∨ u = "") := by
      rintro (rfl | rfl)
      · rw [show parseIso (replaceZ "") = none from rfl] at hpc
        exact Option.noConfusion hpc
      · rw [show parseIso (replaceZ "") = none from rfl] at hpu
        exact Option.noConfusion hpu
    have hval : (entryFor grades asgs st).resolution_time_hours =
        some (Int.tdiv (tu - tc) 3600) := by
      rw [entryFor_rt, hf]
      simp only [if_true]
      unfold calculate_resolution_time
      rw [hc, hu]
      simp only [if_neg hcne, hpc, hpu]
    refine ⟨hval, fun hle => ?_⟩
    rw [hval]
    rw [Int.tdiv_eq_ediv (by omega) (by norm_num)]
  · intro hf
    rw [entryFor_rt, hf]
    simp
  · intro c u hf hc hu hfail
    rw [entryFor_rt, hf]
    simp only [if_true]
    unfold calculate_resolution_time
    rw [hc, hu]
    by_cases hce : c = "" ∨ u = ""
    · simp only [if_pos hce]
    · simp only [if_neg hce]
      rcases hfail with hfc | hfu
      · rw [hfc]
      · rw [hfu]
        cases parseIso (replaceZ c) <;> rfl

theorem c3_resolution_time_witness :
    (entryFor [] [] ⟨"w1", some "2024-01-01T00:00:00Z", some "2024-01-01T10:30:00Z",
      true⟩).resolution_time_hours = some 10
    ∧ (entryFor [] [] ⟨"w2", some "2024-01-01T00:00:00Z", some "2024-01-01T10:30:00Z",
      false⟩).resolution_time_hours = none
    ∧ (entryFor [] [] ⟨"w3", some "oops", some "2024-01-01T10:30:00Z",
      true⟩).resolution_time_hours = none := by
  refine ⟨?_, ?_, ?_⟩
  · have h := (c3_resolution_time ⟨"w1", some "2024-01-01T00:00:00Z",
      some "2024-01-01T10:30:00Z", true⟩ [] []).1 "2024-01-01T00:00:00Z"
      "2024-01-01T10:30:00Z" 1704067200 1704105000 rfl rfl rfl (by decide) (by decide)
    rw [h.1]
    decide
  · exact (c3_resolution_time ⟨"w2", some "2024-01-01T00:00:00Z",
      some "2024-01-01T10:30:00Z", false⟩ [] []).2.1 rfl
  · exact (c3_resolution_time ⟨"w3", some "oops", some "2024-01-01T10:30:00Z",
      true⟩ [] []).2.2 "oops" "2024-01-01T10:30:00Z" rfl rfl rfl (Or.inl (by decide))

theorem gradesOf_map_name_eq : ∀ (gs gs' : List GradeRow) (u : String),
    gs.map (fun g => (g.github_username, g.assignment_name)) =
      gs'.map (fun g => (g.github_username, g.assignment_name)) →
    (gradesOf gs u).map GradeRow.assignment_name =
      (gradesOf gs' u).map GradeRow.assignment_name := by
  intro gs
  induction gs with
  | nil =>
    intro gs' u h
    cases gs' with
    | nil => rfl
    | cons g' t' => simp at h
  | cons g t ih =>
    intro gs' u h
    cases gs' with
    | nil => simp at h
    | cons g' t' =>
      simp only [List.map_cons, List.cons.injEq] at h
      obtain ⟨hpair, htail⟩ := h
      have huser : g.github_username = g'.github_username := congrArg Prod.fst hpair
      have hname : g.assignment_name = g'.assignment_name := congrArg Prod.snd hpair
      unfold gradesOf
      simp only [List.filter_cons, huser]
      by_cases hu : g'.github_username = u
      · rw [if_pos (by simp [hu]), if_pos (by simp [hu])]
        simp only [List.map_cons, hname]
        exact congrArg (g'.assignment_name :: ·) (ih t' u htail)
      · rw [if_neg (by simp [hu]), if_neg (by simp [hu])]
        exact ih t' u htail

/-- C9: `assignments_completed` counts the distinct assignment names among
the student's grade records, and is unchanged by any modification of the
records' `points_awarded` values (null and zero included). -/
theorem c9_assignments_completed (st : StudentRow) (grades : List GradeRow)
    (asgs : List AssignmentRow) :
    (entryFor grades asgs st).assignments_completed =
      ((gradesOf grades st.github_username).map GradeRow.assignment_name).toFinset.card
    ∧ (∀ grades' : List GradeRow,
        grades.map (fun g => (g.github_username, g.assignment_name)) =
          grades'.map (fun g => (g.github_username, g.assignment_name)) →
        (entryFor grades asgs st).assignments_completed =
          (entryFor grades' asgs st).assignments_completed) := by
  have hac : ∀ (gs : List GradeRow),
      (entryFor gs asgs st).assignments_completed =
        ((gradesOf gs st.github_username).map GradeRow.assignment_name).dedup.length :=
    fun gs => rfl
  constructor
  · rw [hac, List.card_toFinset]
  · intro grades' h
    rw [hac, hac, gradesOf_map_name_eq grades grades' st.github_username h]

theorem c9_assignments_completed_witness :
    (entryFor [⟨"s", "hw1", some 5⟩, ⟨"s", "hw2", none⟩] [] ⟨"s", none, none,
      false⟩).assignments_completed = 2
    ∧ (entryFor [⟨"s", "hw1", some 5⟩, ⟨"s", "hw2", none⟩] [] ⟨"s", none, none,
        false⟩).assignments_completed =
      (entryFor [⟨"s", "hw1", some 0⟩, ⟨"s", "hw2", some 7⟩] [] ⟨"s", none, none,
        false⟩).assignments_completed := by
  constructor
  · exact (c9_assignments_completed ⟨"s", none, none, false⟩
      [⟨"s", "hw1", some 5⟩, ⟨"s", "hw2", none⟩] []).1.trans (by decide)
  · exact (c9_assignments_completed ⟨"s", none, none, false⟩
      [⟨"s", "hw1", some 5⟩, ⟨"s", "hw2", none⟩] []).2
      [⟨"s", "hw1", some 0⟩, ⟨"s", "hw2", some 7⟩] (by decide)

theorem sum_truthy_filter_eq : ∀ (gs : List GradeRow),
    (((gs.filter (fun g => truthyInt g.points_awarded)).map
      (fun g => g.points_awarded.getD 0)).sum : Int) =
    (gs.filterMap (fun g => g.points_awarded)).sum := by
  intro gs
  induction gs with
  | nil => rfl
  | cons g t ih =>
    cases hg : g.points_awarded with
    | none =>
      simp only [List.filter_cons, List.filterMap_cons, hg, truthyInt]
      simpa using ih
    | some v =>
      by_cases hv : v = 0
      · subst hv
        have htv : truthyInt (some 0) = false := by simp [truthyInt]
        simp only [List.filter_cons, List.filterMap_cons, hg, htv, Bool.false_eq_true,
          if_false, List.sum_cons, ih]
        omega
      · have htv : truthyInt (some v) = true := by simp [truthyInt, hv]
        simp only [List.filter_cons, List.filterMap_cons, hg, htv, if_true, List.map_cons,
          List.sum_cons, Option.getD_some, ih]

theorem assignmentPoints_eq_spec : ∀ (asgs : List AssignmentRow) (name : String),
    (asgs.map AssignmentRow.name).Nodup →
    assignmentPoints asgs name = specAssignmentPoints asgs name := by
  intro asgs
  induction asgs with
  | nil => intro name _; rfl
  | cons a t ih =>
    intro name hnd
    simp only [List.map_cons, List.nodup_cons] at hnd
    obtain ⟨hna, hnd'⟩ := hnd
    by_cases hn : a.name = name
    · have ht1 : t.filter (fun x => decide (x.name = name) && truthyInt x.points_available)
          = [] := by
        rw [List.filter_eq_nil_iff]
        intro x hx
        simp only [Bool.and_eq_true, decide_eq_true_eq, not_and]
        intro hxn _
        exact hna (by rw [hn, ← hxn]; exact List.mem_map_of_mem AssignmentRow.name hx)
      have ht2 : t.filter (fun x => decide (x.name = name)) = [] := by
        rw [List.filter_eq_nil_iff]
        intro x hx
        simp only [decide_eq_true_eq]
        intro hxn
        exact hna (by rw [hn, ← hxn]; exact List.mem_map_of_mem AssignmentRow.name hx)
      unfold assignmentPoints specAssignmentPoints
      simp only [List.filter_cons, ht1, ht2]
      by_cases hp : truthyInt a.points_available = true
      · rw [if_pos (show (decide (a.name = name) && truthyInt a.points_available) = true by
            simp [hn, hp]),
          if_pos (show decide (a.name = name) = true by simp [hn])]
      · rw [if_neg (show ¬ (decide (a.name = name) && truthyInt a.points_available) = true by
            simp [hp]),
          if_pos (show decide (a.name = name) = true by simp [hn])]
        cases hpa : a.points_available with
        | none => simp [List.getLast?, hpa]
        | some v =>
          have hv0 : v = 0 := by
            by_contra hv
            exact hp (by simp [truthyInt, hpa, hv])
          subst hv0
          simp [List.getLast?, hpa]
    · unfold assignmentPoints specAssignmentPoints
      simp only [List.filter_cons]
      rw [if_neg (show ¬ (decide (a.name = name) && truthyInt a.points_available) = true by
          simp [hn]),
        if_neg (show ¬ decide (a.name = name) = true by simp [hn])]
      exact ih name hnd'

theorem totalPossible_eq_spec (st : StudentRow) (grades : List GradeRow)
    (asgs : List AssignmentRow)
    (hA : (asgs.map AssignmentRow.name).Nodup)
    (hG : ((gradesOf grades st.github_username).map GradeRow.assignment_name).Nodup) :
    (((gradesOf grades st.github_username).map
      (fun g => assignmentPoints asgs g.assignment_name)).sum : Int) =
    specTotalPossible asgs (gradesOf grades st.github_username) := by
  unfold specTotalPossible
  rw [List.dedup_eq_self.mpr hG, List.map_map]
  apply congrArg
  exact List.map_congr_left (fun g _ => assignmentPoints_eq_spec asgs g.assignment_name hA)

theorem pyRoundDiv_bounds (n d : Int) (hd : 0 < d) (hn : 0 ≤ n) (hnd : n ≤ 100 * d) :
    0 ≤ pyRoundDiv n d ∧ pyRoundDiv n d ≤ 100 := by
  have hd0 : d ≠ 0 := by omega
  have hf0 : 0 ≤ n / d := Int.ediv_nonneg hn (le_of_lt hd)
  have hf100 : n / d ≤ 100 := by
    have h1 : n / d ≤ 100 * d / d := Int.ediv_le_ediv hd hnd
    rwa [Int.mul_ediv_cancel 100 hd0] at h1
  have hdm := Int.ediv_add_emod n d
  have hr0 : 0 ≤ n % d := Int.emod_nonneg n hd0
  have hsub : n - n / d * d = n % d := by
    rw [mul_comm]
    omega
  have hlt100 : 0 < n % d → n / d < 100 := by
    intro hrpos
    rcases lt_or_eq_of_le hf100 with h | h
    · exact h
    · exfalso
      have hle : n ≤ n / d * d := by rw [h]; exact hnd
      rw [mul_comm] at hle
      omega
  simp only [pyRoundDiv]
  rw [hsub]
  by_cases h1 : 2 * (n % d) < d
  · rw [if_pos h1]
    exact ⟨hf0, hf100⟩
  · rw [if_neg h1]
    have hrpos : 0 < n % d := by omega
    have hflt := hlt100 hrpos
    by_cases h2 : d < 2 * (n % d)
    · rw [if_pos h2]
      constructor <;> omega
    · rw [if_neg h2]
      by_cases h3 : n / d % 2 = 0
      · rw [if_pos h3]
        exact ⟨hf0, hf100⟩
      · rw [if_neg h3]
        constructor <;> omega

/-- C5 (amended): `total_score` is the sum of the non-null `points_awarded`
values, `total_possible` the sum of `points_available` over the distinct
assignments the student has a grade record for (unresolved contributing 0),
and `percentage` is round(100 × total_score / total_possible) when
total_possible > 0 and 0 otherwise; the percentage lies between 0 and 100
whenever 0 ≤ total_score ≤ total_possible, but the code does not clamp it
beyond that. -/
theorem c5_totals_and_percentage (st : StudentRow) (grades : List GradeRow)
    (asgs : List AssignmentRow)
    (hA : (asgs.map AssignmentRow.name).Nodup)
    (hG : ((gradesOf grades st.github_username).map GradeRow.assignment_name).Nodup) :
    (entryFor grades asgs st).total_score = specTotalScore (gradesOf grades st.github_username)
    ∧ (entryFor grades asgs st).total_possible =
        specTotalPossible asgs (gradesOf grades st.github_username)
    ∧ (entryFor grades asgs st).percentage =
        (if 0 < specTotalPossible asgs (gradesOf grades st.github_username) then
          pyRoundDiv (100 * specTotalScore (gradesOf grades st.github_username))
            (specTotalPossible asgs (gradesOf grades st.github_username))
        else 0)
    ∧ (0 ≤ specTotalScore (gradesOf grades st.github_username) →
        specTotalScore (gradesOf grades st.github_username) ≤
          specTotalPossible asgs (gradesOf grades st.github_username) →
        0 ≤ (entryFor grades asgs st).percentage
        ∧ (entryFor grades asgs st).percentage ≤ 100) := by
  have e1 : (entryFor grades asgs st).total_score =
      specTotalScore (gradesOf grades st.github_username) :=
    sum_truthy_filter_eq (gradesOf grades st.github_username)
  have e2 : (entryFor grades asgs st).total_possible =
      specTotalPossible asgs (gradesOf grades st.github_username) :=
    totalPossible_eq_spec st grades asgs hA hG
  have e3 : (entryFor grades asgs st).percentage =
      (if 0 < specTotalPossible asgs (gradesOf grades st.github_username) then
        pyRoundDiv (100 * specTotalScore (gradesOf grades st.github_username))
          (specTotalPossible asgs (gradesOf grades st.github_username))
      else 0) := by
    calc (entryFor grades asgs st).percentage
        = (if 0 < (entryFor grades asgs st).total_possible then
            pyRoundDiv (100 * (entryFor grades asgs st).total_score)
              ((entryFor grades asgs st).total_possible)
          else 0) := rfl
      _ = _ := by rw [e1, e2]
  refine ⟨e1, e2, e3, fun hts0 htsle => ?_⟩
  rw [e3]
  by_cases hp : 0 < specTotalPossible asgs (gradesOf grades st.github_username)
  · rw [if_pos hp]
    exact pyRoundDiv_bounds _ _ hp (by omega)
      (by have := mul_le_mul_of_nonneg_left htsle (by norm_num : (0 : Int) ≤ 100); linarith)
  · rw [if_neg hp]
    norm_num

theorem c5_totals_and_percentage_witness :
    (entryFor [⟨"s", "hw", some 80⟩] [⟨"hw", some 100⟩] ⟨"s", none, none,
      false⟩).total_score = 80
    ∧ (entryFor [⟨"s", "hw", some 80⟩] [⟨"hw", some 100⟩] ⟨"s", none, none,
        false⟩).total_possible = 100
    ∧ (entryFor [⟨"s", "hw", some 80⟩] [⟨"hw", some 100⟩] ⟨"s", none, none,
        false⟩).percentage = 80
    ∧ (0 ≤ (entryFor [⟨"s", "hw", some 80⟩] [⟨"hw", some 100⟩] ⟨"s", none, none,
        false⟩).percentage
      ∧ (entryFor [⟨"s", "hw", some 80⟩] [⟨"hw", some 100⟩] ⟨"s", none, none,
        false⟩).percentage ≤ 100) := by
  have h := c5_totals_and_percentage ⟨"s", none, none, false⟩ [⟨"s", "hw", some 80⟩]
    [⟨"hw", some 100⟩] (by decide) (by decide)
  exact ⟨h.1.trans (by decide), h.2.1.trans (by decide), h.2.2.1.trans (by decide),
    h.2.2.2 (by decide) (by decide)⟩

/-- C7: the leaderboard write is clear-then-insert and a failing clear does
not abort the run — with the clear failing and the batch inserts succeeding,
the writer still proceeds to the insert phase, so the final table is the old
(stale, persisting) rows followed by every row of the newly computed
leaderboard. -/
theorem c7_clear_failure_does_not_abort (recOk : Entry → Bool) (s : Store)
    (h : s.students ≠ []) :
    (refreshStore false (fun _ => true) recOk s).leaderboard =
      s.leaderboard ++ computeLeaderboard s.students s.grades s.assignments := by
  unfold refreshStore
  rw [if_neg h]
  exact lbWritePhase_batches_ok false recOk s.leaderboard
    (computeLeaderboard s.students s.grades s.assignments)

theorem c7_clear_failure_does_not_abort_witness :
    (refreshStore false (fun _ => true) (fun _ => true)
      ⟨[⟨"s", none, none, false⟩], [], [],
        [⟨"stale", none, none, none, false, 0, 0, 0, 0, 1⟩]⟩).leaderboard =
      [⟨"stale", none, none, none, false, 0, 0, 0, 0, 1⟩] ++
        computeLeaderboard [⟨"s", none, none, false⟩] [] [] :=
  c7_clear_failure_does_not_abort (fun _ => true) _ (by decide)

theorem mem_upsertOne_self (key : α → κ) [DecidableEq κ] (t : List α) (r : α) :
    r ∈ upsertOne key t r := by
  unfold upsertOne
  by_cases h : t.any (fun x => decide (key x = key r)) = true
  · rw [if_pos h]
    rw [List.any_eq_true] at h
    obtain ⟨x, hx, hkey⟩ := h
    rw [decide_eq_true_eq] at hkey
    have hfx : (if key x = key r then r else x) = r := if_pos hkey
    have hmem : (if key x = key r then r else x) ∈
        t.map (fun y => if key y = key r then r else y) :=
      List.mem_map_of_mem (fun y => if key y = key r then r else y) hx
    rw [hfx] at hmem
    exact hmem
  · rw [if_neg h]
    exact List.mem_append_right t (List.mem_singleton_self r)

theorem mem_upsertOne_of_ne (key : α → κ) [DecidableEq κ] {t : List α} {x : α} (r : α)
    (hx : x ∈ t) (hne : key x ≠ key r) : x ∈ upsertOne key t r := by
  unfold upsertOne
  by_cases h : t.any (fun y => decide (key y = key r)) = true
  · rw [if_pos h]
    have hfx : (if key x = key r then r else x) = x := if_neg hne
    have hmem : (if key x = key r then r else x) ∈
        t.map (fun y => if key y = key r then r else y) :=
      List.mem_map_of_mem (fun y => if key y = key r then r else y) hx
    rw [hfx] at hmem
    exact hmem
  · rw [if_neg h]
    exact List.mem_append_left _ hx

theorem mem_recFold_of_ne (recOk : Entry → Bool) : ∀ (b : List Entry) (t : List Entry)
    (r : Entry), r ∈ t → (∀ x ∈ b, x.github_username ≠ r.github_username) →
    r ∈ b.foldl (fun t' x =>
      if recOk x then upsertOne Entry.github_username t' x else t') t := by
  intro b
  induction b with
  | nil => intro t r hr _; exact hr
  | cons x bs ih =>
    intro t r hr hne
    simp only [List.foldl_cons]
    apply ih
    · by_cases hok : recOk x = true
      · rw [if_pos hok]
        exact mem_upsertOne_of_ne Entry.github_username x hr
          (fun h => hne x (List.mem_cons_self x bs) h.symm)
      · rw [if_neg hok]
        exact hr
    · intro y hy
      exact hne y (List.mem_cons_of_mem x hy)

theorem mem_recFold_self (recOk : Entry → Bool) (b : List Entry) (t : List Entry) (r : Entry)
    (hrb : r ∈ b) (hok : recOk r = true)
    (hnd : (b.map Entry.github_username).Nodup) :
    r ∈ b.foldl (fun t' x =>
      if recOk x then upsertOne Entry.github_username t' x else t') t := by
  obtain ⟨b1, b2, rfl⟩ := List.append_of_mem hrb
  rw [List.foldl_append]
  simp only [List.foldl_cons]
  apply mem_recFold_of_ne
  · rw [if_pos hok]
    exact mem_upsertOne_self _ _ _
  · intro x hx
    have hnotin : r.github_username ∉ b2.map Entry.github_username := by
      rw [List.map_append, List.map_cons] at hnd
      have h2 := hnd.of_append_right
      exact (List.nodup_cons.mp h2).1
    intro hxy
    exact hnotin (hxy ▸ List.mem_map_of_mem Entry.github_username hx)

theorem mem_batchStep_of_ne (batchOk : List Entry → Bool) (recOk : Entry → Bool)
    (b : List Entry) (t : List Entry) (r : Entry) (hr : r ∈ t)
    (hne : ∀ x ∈ b, x.github_username ≠ r.github_username) :
    r ∈ (if batchOk b then t ++ b
         else b.foldl (fun t' x =>
           if recOk x then upsertOne Entry.github_username t' x else t') t) := by
  by_cases h : batchOk b = true
  · rw [if_pos h]
    exact List.mem_append_left _ hr
  · rw [if_neg h]
    exact mem_recFold_of_ne recOk b t r hr hne

theorem mem_chunksFold_of_ne (batchOk : List Entry → Bool) (recOk : Entry → Bool) :
    ∀ (cs : List (List Entry)) (t : List Entry) (r : Entry), r ∈ t →
    (∀ x ∈ cs.flatten, x.github_username ≠ r.github_username) →
    r ∈ cs.foldl (fun t b =>
      if batchOk b then t ++ b
      else b.foldl (fun t' x =>
        if recOk x then upsertOne Entry.github_username t' x else t') t) t := by
  intro cs
  induction cs with
  | nil => intro t r hr _; exact hr
  | cons c cs ih =>
    intro t r hr hne
    simp only [List.foldl_cons]
    apply ih
    · exact mem_batchStep_of_ne batchOk recOk c t r hr
        (fun x hx => hne x (by rw [List.flatten_cons]; exact List.mem_append_left _ hx))
    · intro x hx
      exact hne x (by rw [List.flatten_cons]; exact List.mem_append_right _ hx)

theorem chunksFold_mem (batchOk : List Entry → Bool) (recOk : Entry → Bool) :
    ∀ (cs : List (List Entry)) (t : List Entry),
    ((cs.flatten.map Entry.github_username).Nodup) →
    ∀ b ∈ cs, ∀ r ∈ b, (batchOk b = true ∨ recOk r = true) →
    r ∈ cs.foldl (fun t b =>
      if batchOk b then t ++ b
      else b.foldl (fun t' x =>
        if recOk x then upsertOne Entry.github_username t' x else t') t) t := by
  intro cs
  induction cs with
  | nil => intro t _ b hb; cases hb
  | cons c cs ih =>
    intro t hnd b hb r hr hok
    have hnd' : ((c.map Entry.github_username) ++
        (cs.flatten.map Entry.github_username)).Nodup := by
      rw [← List.map_append, ← List.flatten_cons]
      exact hnd
    rw [List.nodup_append] at hnd'
    simp only [List.foldl_cons]
    rcases List.mem_cons.mp hb with rfl | hbs
    · apply mem_chunksFold_of_ne
      · rcases hok with hbo | hro
        · rw [if_pos hbo]
          exact List.mem_append_right t hr
        · by_cases hbo : batchOk b = true
          · rw [if_pos hbo]
            exact List.mem_append_right t hr
          · rw [if_neg hbo]
            exact mem_recFold_self recOk b t r hr hro hnd'.1
      · intro x hx hxr
        have h1 : r.github_username ∈ b.map Entry.github_username :=
          List.mem_map_of_mem Entry.github_username hr
        have h2 : r.github_username ∈ cs.flatten.map Entry.github_username :=
          hxr ▸ List.mem_map_of_mem Entry.github_username hx
        exact hnd'.2.2 h1 h2
    · exact ih _ hnd'.2.1 b hbs r hr hok

theorem lbWritePhase_mem (clearOk : Bool) (batchOk : List Entry → Bool)
    (recOk : Entry → Bool) (table rows : List Entry)
    (hnd : (rows.map Entry.github_username).Nodup)
    (b : List Entry) (hb : b ∈ chunks10 rows) (r : Entry) (hr : r ∈ b)
    (hok : batchOk b = true ∨ recOk r = true) :
    r ∈ lbWritePhase clearOk batchOk recOk table rows := by
  unfold lbWritePhase
  apply chunksFold_mem batchOk recOk (chunks10 rows) _ _ b hb r hr hok
  rw [chunks10_flatten]
  exact hnd

/-- C6: when a leaderboard batch insert fails the writer falls back to
one-by-one upserts for that batch, so a single failing record cannot block
its batch-mates — for every pattern of store failures, every record of a
successful batch and every record of a failed batch whose individual upsert
succeeds ends up in the written table, and the run never aborts; and in
`sync_grades_to_supabase` a batch containing a record with a non-coercible
`points_awarded` still upserts every coercible record of that batch. -/
theorem c6_partial_failure_isolation :
    (∀ (clearOk : Bool) (batchOk : List Entry → Bool) (recOk : Entry → Bool)
      (table rows : List Entry), (rows.map Entry.github_username).Nodup →
      ∀ b ∈ chunks10 rows, ∀ r ∈ b, (batchOk b = true ∨ recOk r = true) →
      r ∈ lbWritePhase clearOk batchOk recOk table rows)
    ∧ (∀ (now : String) (raw : List RawGrade) (r : RawGrade) (rec : GradeRec),
        r ∈ raw → coerceGrade now r = some rec → rec ∈ preparedGrades now raw) := by
  constructor
  · intro clearOk batchOk recOk table rows hnd b hb r hr hok
    exact lbWritePhase_mem clearOk batchOk recOk table rows hnd b hb r hr hok
  · intro now raw r rec hr hc
    exact List.mem_filterMap.mpr ⟨r, hr, hc⟩

theorem c6_partial_failure_isolation_witness :
    (⟨"b", none, none, none, false, 0, 0, 0, 0, 2⟩ : Entry) ∈
      lbWritePhase true (fun _ => false) (fun _ => true) []
        [⟨"a", none, none, none, false, 0, 0, 0, 0, 1⟩,
         ⟨"b", none, none, none, false, 0, 0, 0, 0, 2⟩]
    ∧ (⟨"g3", "hw", none, "t0"⟩ : GradeRec) ∈ preparedGrades "t0"
        [⟨"g1", "hw", RawVal.intV 5⟩, ⟨"g2", "hw", RawVal.strV "xx"⟩,
         ⟨"g3", "hw", RawVal.nan⟩] := by
  constructor
  · exact c6_partial_failure_isolation.1 true (fun _ => false) (fun _ => true) []
      [⟨"a", none, none, none, false, 0, 0, 0, 0, 1⟩,
       ⟨"b", none, none, none, false, 0, 0, 0, 0, 2⟩] (by decide)
      [⟨"a", none, none, none, false, 0, 0, 0, 0, 1⟩,
       ⟨"b", none, none, none, false, 0, 0, 0, 0, 2⟩] (by decide)
      ⟨"b", none, none, none, false, 0, 0, 0, 0, 2⟩ (by decide) (Or.inr rfl)
  · exact c6_partial_failure_isolation.2 "t0"
      [⟨"g1", "hw", RawVal.intV 5⟩, ⟨"g2", "hw", RawVal.strV "xx"⟩,
       ⟨"g3", "hw", RawVal.nan⟩]
      ⟨"g3", "hw", RawVal.nan⟩ ⟨"g3", "hw", none, "t0"⟩ (by decide) (by decide)

theorem upsertOne_preserves_key (key : α → κ) [DecidableEq κ] (t : List α) (r : α) (k : κ)
    (h : ∃ y ∈ t, key y = k) : ∃ y ∈ upsertOne key t r, key y = k := by
  obtain ⟨y, hy, hk⟩ := h
  unfold upsertOne
  by_cases hany : t.any (fun x => decide (key x = key r)) = true
  · rw [if_pos hany]
    by_cases hyr : key y = key r
    · refine ⟨r, ?_, by rw [← hyr, hk]⟩
      have hfy : (if key y = key r then r else y) = r := if_pos hyr
      have hmem : (if key y = key r then r else y) ∈
          t.map (fun x => if key x = key r then r else x) :=
        List.mem_map_of_mem (fun x => if key x = key r then r else x) hy
      rw [hfy] at hmem
      exact hmem
    · refine ⟨y, ?_, hk⟩
      have hfy : (if key y = key r then r else y) = y := if_neg hyr
      have hmem : (if key y = key r then r else y) ∈
          t.map (fun x => if key x = key r then r else x) :=
        List.mem_map_of_mem (fun x => if key x = key r then r else x) hy
      rw [hfy] at hmem
      exact hmem
  · rw [if_neg hany]
    exact ⟨y, List.mem_append_left _ hy, hk⟩

theorem upsertAll_preserves_key (key : α → κ) [DecidableEq κ] :
    ∀ (d t : List α) (k : κ), (∃ y ∈ t, key y = k) →
    ∃ y ∈ upsertAll key t d, key y = k := by
  intro d
  induction d with
  | nil => intro t k h; exact h
  | cons a d ih =>
    intro t k h
    exact ih _ k (upsertOne_preserves_key key t a k h)

theorem upsertAll_covers (key : α → κ) [DecidableEq κ] :
    ∀ (d t : List α) (r : α), r ∈ d → ∃ y ∈ upsertAll key t d, key y = key r := by
  intro d
  induction d with
  | nil => intro t r hr; cases hr
  | cons a d ih =>
    intro t r hr
    rcases List.mem_cons.mp hr with rfl | hrd
    · exact upsertAll_preserves_key key d _ (key r)
        ⟨r, mem_upsertOne_self key t r, rfl⟩
    · exact ih _ r hrd

theorem mem_upsertOne_of_key_ne (key : α → κ) [DecidableEq κ] {t : List α} {r x : α}
    (hx : x ∈ upsertOne key t r) (hne : key x ≠ key r) : x ∈ t := by
  unfold upsertOne at hx
  by_cases h : t.any (fun y => decide (key y = key r)) = true
  · rw [if_pos h] at hx
    obtain ⟨y, hy, hfy⟩ := List.mem_map.mp hx
    by_cases hyr : key y = key r
    · rw [if_pos hyr] at hfy
      rw [← hfy] at hne
      exact absurd rfl hne
    · rw [if_neg hyr] at hfy
      exact hfy ▸ hy
  · rw [if_neg h] at hx
    rcases List.mem_append.mp hx with h1 | h1
    · exact h1
    · rw [List.mem_singleton] at h1
      subst h1
      exact absurd rfl hne

theorem mem_upsertOne_key_eq (key : α → κ) [DecidableEq κ] {t : List α} {r x : α}
    (hx : x ∈ upsertOne key t r) (heq : key x = key r) : x = r := by
  unfold upsertOne at hx
  by_cases h : t.any (fun y => decide (key y = key r)) = true
  · rw [if_pos h] at hx
    obtain ⟨y, hy, hfy⟩ := List.mem_map.mp hx
    by_cases hyr : key y = key r
    · rw [if_pos hyr] at hfy
      exact hfy.symm
    · rw [if_neg hyr] at hfy
      rw [← hfy] at heq
      exact absurd heq hyr
  · rw [if_neg h] at hx
    rcases List.mem_append.mp hx with h1 | h1
    · exact absurd (List.any_eq_true.mpr ⟨x, h1, by simp [heq]⟩) h
    · exact List.mem_singleton.mp h1

theorem mem_upsertAll_of_keys_ne (key : α → κ) [DecidableEq κ] :
    ∀ (d t : List α) (x : α), x ∈ upsertAll key t d → (∀ r ∈ d, key r ≠ key x) →
    x ∈ t := by
  intro d
  induction d with
  | nil => intro t x hx _; exact hx
  | cons a d ih =>
    intro t x hx hne
    have h1 : x ∈ upsertOne key t a :=
      ih _ x hx (fun r hr => hne r (List.mem_cons_of_mem a hr))
    exact mem_upsertOne_of_key_ne key h1
      (fun hk => hne a (List.mem_cons_self a d) hk.symm)

theorem upsertAll_lastOcc (key : α → κ) [DecidableEq κ] :
    ∀ (d t : List α) (x : α), x ∈ upsertAll key t d →
    ((d.filter (fun r => decide (key r = key x))).getLast?).getD x = x := by
  intro d
  induction d with
  | nil => intro t x _; rfl
  | cons a d ih =>
    intro t x hx
    by_cases hkd : ∃ r ∈ d, key r = key x
    · have hd := ih _ x hx
      rw [List.filter_cons]
      by_cases ha : key a = key x
      · rw [if_pos (by simp [ha])]
        have hne : d.filter (fun r => decide (key r = key x)) ≠ [] := by
          obtain ⟨r, hr, hk⟩ := hkd
          intro hemp
          have hmem : r ∈ d.filter (fun r => decide (key r = key x)) :=
            List.mem_filter.mpr ⟨hr, by simp [hk]⟩
          rw [hemp] at hmem
          cases hmem
        obtain ⟨b, l, hbl⟩ := List.exists_cons_of_ne_nil hne
        rw [hbl] at hd ⊢
        rw [List.getLast?_cons_cons]
        exact hd
      · rw [if_neg (by simp [ha])]
        exact hd
    · push_neg at hkd
      have h1 : x ∈ upsertOne key t a := mem_upsertAll_of_keys_ne key d _ x hx hkd
      have hfe : d.filter (fun r => decide (key r = key x)) = [] := by
        rw [List.filter_eq_nil_iff]
        intro r hr
        simp only [decide_eq_true_eq]
        exact hkd r hr
      rw [List.filter_cons]
      by_cases ha : key a = key x
      · rw [if_pos (by simp [ha])]
        have hax : x = a := mem_upsertOne_key_eq key h1 ha.symm
        rw [hfe]
        simp [hax]
      · rw [if_neg (by simp [ha])]
        rw [hfe]
        rfl

theorem upsertAll_eq_map (key : α → κ) [DecidableEq κ] :
    ∀ (d T : List α), (∀ r ∈ d, ∃ y ∈ T, key y = key r) →
    upsertAll key T d = T.map (fun x =>
      ((d.filter (fun r => decide (key r = key x))).getLast?).getD x) := by
  intro d
  induction d with
  | nil =>
    intro T _
    have hid : ∀ x ∈ T, ((([] : List α).filter
        (fun r => decide (key r = key x))).getLast?).getD x = id x := fun x _ => rfl
    rw [show upsertAll key T [] = T from rfl, List.map_congr_left hid, List.map_id]
  | cons a d ih =>
    intro T hcov
    have hkeyA : ∃ y ∈ T, key y = key a := hcov a (List.mem_cons_self a d)
    have hany : T.any (fun x => decide (key x = key a)) = true := by
      rw [List.any_eq_true]
      obtain ⟨y, hy, hk⟩ := hkeyA
      exact ⟨y, hy, by simp [hk]⟩
    have hstep : upsertOne key T a = T.map (fun x => if key x = key a then a else x) := by
      unfold upsertOne
      rw [if_pos hany]
    have hcons : upsertAll key T (a :: d) = upsertAll key (upsertOne key T a) d := rfl
    rw [hcons, hstep]
    have hcov' : ∀ r ∈ d, ∃ y ∈ T.map (fun x => if key x = key a then a else x),
        key y = key r := by
      intro r hr
      obtain ⟨y, hy, hk⟩ := hcov r (List.mem_cons_of_mem a hr)
      refine ⟨if key y = key a then a else y, List.mem_map_of_mem _ hy, ?_⟩
      by_cases hya : key y = key a
      · rw [if_pos hya, ← hya, hk]
      · rw [if_neg hya, hk]
    rw [ih _ hcov', List.map_map]
    apply List.map_congr_left
    intro x hxT
    show ((d.filter (fun r => decide (key r =
        key (if key x = key a then a else x)))).getLast?).getD
          (if key x = key a then a else x) =
      (((a :: d).filter (fun r => decide (key r = key x))).getLast?).getD x
    rw [List.filter_cons]
    by_cases hax : key x = key a
    · rw [if_pos hax]
      rw [if_pos (by simp [hax.symm])]
      have hkk : (fun r => decide (key r = key a)) = fun r => decide (key r = key x) := by
        funext r
        rw [hax]
      rw [hkk]
      cases hfl : d.filter (fun r => decide (key r = key x)) with
      | nil => simp
      | cons b l => rw [List.getLast?_cons_cons]; rfl
    · rw [if_neg hax]
      rw [if_neg (by simpa using fun h => hax h.symm)]

theorem upsertAll_idem (key : α → κ) [DecidableEq κ] (t d : List α) :
    upsertAll key (upsertAll key t d) d = upsertAll key t d := by
  rw [upsertAll_eq_map key d (upsertAll key t d)
    (fun r hr => upsertAll_covers key d t r hr)]
  have hpt : ∀ x ∈ upsertAll key t d,
      ((d.filter (fun r => decide (key r = key x))).getLast?).getD x = id x :=
    fun x hx => upsertAll_lastOcc key d t x hx
  rw [List.map_congr_left hpt, List.map_id]

theorem upsertOne_keys_nodup (key : α → κ) [DecidableEq κ] (t : List α) (r : α)
    (h : (t.map key).Nodup) : ((upsertOne key t r).map key).Nodup := by
  unfold upsertOne
  by_cases hany : t.any (fun x => decide (key x = key r)) = true
  · rw [if_pos hany]
    have hkeys : (t.map (fun x => if key x = key r then r else x)).map key = t.map key := by
      rw [List.map_map]
      apply List.map_congr_left
      intro x hx
      by_cases hk : key x = key r
      · simp [hk]
      · simp [hk]
    rw [hkeys]
    exact h
  · rw [if_neg hany, List.map_append]
    rw [List.nodup_append]
    refine ⟨h, List.nodup_singleton _, ?_⟩
    intro a ha hb
    rw [List.map_singleton, List.mem_singleton] at hb
    subst hb
    obtain ⟨x, hx, hk⟩ := List.mem_map.mp ha
    exact hany (List.any_eq_true.mpr ⟨x, hx, by simp [hk]⟩)

theorem upsertAll_keys_nodup (key : α → κ) [DecidableEq κ] :
    ∀ (d t : List α), (t.map key).Nodup → ((upsertAll key t d).map key).Nodup := by
  intro d
  induction d with
  | nil => intro t h; exact h
  | cons a d ih =>
    intro t h
    exact ih _ (upsertOne_keys_nodup key t a h)

/-- C2 (amended): the students, assignments and grades writers issue only
natural-key upserts, repeating the full successful write phase with
identical data leaves the store unchanged (convergence), and upserting never
introduces a duplicate key; the leaderboard write, however, is a clear
followed by plain batch inserts (with a per-record upsert fallback), so not
literally every store write is an upsert. -/
theorem c2_upserts_and_idempotence :
    (∀ (now : String) (studs : List StudentInput),
      ∀ op ∈ syncStudentsOps now studs, op.isUpsert = true)
    ∧ (∀ (now : String) (asgs : List AssignmentInput),
      ∀ op ∈ syncAssignmentsOps now asgs, op.isUpsert = true)
    ∧ (∀ (now : String) (raw : List RawGrade),
      ∀ op ∈ syncGradesOps now raw, op.isUpsert = true)
    ∧ (∀ (s : WStore) (studs : List StudentRec) (asgs : List AssignmentRec)
        (grds : List GradeRec) (lb : List Entry),
        applyRunWrites (applyRunWrites s studs asgs grds lb) studs asgs grds lb =
          applyRunWrites s studs asgs grds lb)
    ∧ (∀ (t d : List StudentRec), (t.map StudentRec.github_username).Nodup →
        ((upsertAll StudentRec.github_username t d).map
          StudentRec.github_username).Nodup) := by
  refine ⟨?_, ?_, ?_, ?_, ?_⟩
  · intro now studs op hop
    simp only [syncStudentsOps] at hop
    split_ifs at hop
    · exact absurd hop (List.not_mem_nil op)
    · exact absurd hop (List.not_mem_nil op)
    · rw [List.mem_singleton] at hop
      subst hop
      rfl
  · intro now asgs op hop
    simp only [syncAssignmentsOps] at hop
    split_ifs at hop
    · exact absurd hop (List.not_mem_nil op)
    · exact absurd hop (List.not_mem_nil op)
    · rw [List.mem_singleton] at hop
      subst hop
      rfl
  · intro now raw op hop
    simp only [syncGradesOps] at hop
    split_ifs at hop
    · exact absurd hop (List.not_mem_nil op)
    · exact absurd hop (List.not_mem_nil op)
    · rw [List.mem_singleton] at hop
      subst hop
      rfl
  · intro s studs asgs grds lb
    obtain ⟨ss, sa, sg, sl⟩ := s
    unfold applyRunWrites
    simp only [WStore.mk.injEq]
    refine ⟨upsertAll_idem _ _ _, upsertAll_idem _ _ _, upsertAll_idem _ _ _, ?_⟩
    simp only [lbWritePhase_batches_ok]
    simp
  · intro t d h
    exact upsertAll_keys_nodup StudentRec.github_username d t h

theorem c2_upserts_and_idempotence_witness :
    TableOp.isUpsert (TableOp.upsertStudents [⟨"s", none, none, none, "t0"⟩]) = true
    ∧ TableOp.isUpsert (TableOp.upsertAssignments [⟨"hw", some 100, "t0"⟩]) = true
    ∧ TableOp.isUpsert (TableOp.upsertGrades [⟨"s", "hw", some 5, "t0"⟩]) = true
    ∧ applyRunWrites (applyRunWrites ⟨[], [], [], []⟩ [⟨"s", none, none, none, "t0"⟩]
        [⟨"hw", some 100, "t0"⟩] [⟨"s", "hw", some 5, "t0"⟩]
        [⟨"s", none, none, none, false, 5, 100, 5, 1, 1⟩])
        [⟨"s", none, none, none, "t0"⟩] [⟨"hw", some 100, "t0"⟩]
        [⟨"s", "hw", some 5, "t0"⟩]
        [⟨"s", none, none, none, false, 5, 100, 5, 1, 1⟩] =
      applyRunWrites ⟨[], [], [], []⟩ [⟨"s", none, none, none, "t0"⟩]
        [⟨"hw", some 100, "t0"⟩] [⟨"s", "hw", some 5, "t0"⟩]
        [⟨"s", none, none, none, false, 5, 100, 5, 1, 1⟩]
    ∧ ((upsertAll StudentRec.github_username []
        [⟨"s", none, none, none, "t0"⟩]).map StudentRec.github_username).Nodup := by
  refine ⟨?_, ?_, ?_, ?_, ?_⟩
  · exact c2_upserts_and_idempotence.1 "t0" [⟨"s", none, none, none, false⟩]
      (TableOp.upsertStudents [⟨"s", none, none, none, "t0"⟩]) (by decide)
  · exact c2_upserts_and_idempotence.2.1 "t0" [⟨"hw", some 100⟩]
      (TableOp.upsertAssignments [⟨"hw", some 100, "t0"⟩]) (by decide)
  · exact c2_upserts_and_idempotence.2.2.1 "t0" [⟨"s", "hw", RawVal.intV 5⟩]
      (TableOp.upsertGrades [⟨"s", "hw", some 5, "t0"⟩]) (by decide)
  · exact c2_upserts_and_idempotence.2.2.2.1 ⟨[], [], [], []⟩
      [⟨"s", none, none, none, "t0"⟩] [⟨"hw", some 100, "t0"⟩]
      [⟨"s", "hw", some 5, "t0"⟩] [⟨"s", none, none, none, false, 5, 100, 5, 1, 1⟩]
  · exact c2_upserts_and_idempotence.2.2.2.2 [] [⟨"s", none, none, none, "t0"⟩]
      (by decide)
